import Mathlib

/-!
Verification development for the character-level recurrent text generator
implemented in `neural_net.py`.  The file gives a shallow embedding of the
pure data-handling core of the program — dataset import and record wrapping,
vocabulary construction with the two translation dictionaries, one-hot
encoding and decoding, the rare-character pruning routine, the per-epoch
side-effect schedule of the training loop, and the autoregressive sampling
loop — and proves the specified properties about these definitions.

Conventions of the embedding:
* Python strings are modelled as `List Char`; built-up display strings keep
  the `String` type.
* Python dictionaries built by the `enumerate` loops of `get_character_set`
  are modelled as association lists queried with `List.lookup`; the keys
  inserted are pairwise distinct, so first-match lookup agrees with the
  dictionary semantics.
* `numpy` arrays are `List (List Nat)` (matrices of 0/1 entries) and
  `List (List Rat)` for predicted score rows; an in-place row write is
  `List.set`.  A `List.set` out of range is a no-op, which matches exactly
  the `try ... except IndexError: pass` protection around every such write
  in `append_onehot` and `generate_text`; the writes of `convert_to_onehot`
  carry hypotheses keeping them in bounds, mirroring its call sites.
* Fallible operations (dictionary lookup raising `KeyError`, `list.remove`
  raising `ValueError`, `numpy.argmax` of an empty row raising
  `ValueError`, `json.load` failing) return `Option`, with `none` for an
  uncaught exception.
-/

namespace NeuralNet

/-- Start-of-record sentinel, the character written as an escape code one in
the source (`new_record = '\x01'`). -/
def soh : Char := Char.ofNat 1

/-- End-of-record sentinel, escape code two in the source. -/
def stx : Char := Char.ofNat 2

/-- Pad sentinel, escape code zero in the source. -/
def nul : Char := Char.ofNat 0

/-- Wrapping of one raw record performed by the second loop of
`import_data`: prepend the start sentinel, append the end sentinel and then
the pad sentinel. -/
def wrap_record (text : List Char) : List Char :=
  soh :: (text ++ [stx, nul])

/-- The fold of the first loop of `import_data`: starting from the initial
`self.max_string_length = 0`, replace the accumulator by each record length
that exceeds it. -/
def max_raw_length (texts : List (List Char)) : Nat :=
  texts.foldl (fun acc t => if t.length > acc then t.length else acc) 0

/-- The `max_string_length` computed by `import_data`: the fold above plus
three (start sentinel, end sentinel, pad sentinel). -/
def compute_max_string_length (texts : List (List Char)) : Nat :=
  max_raw_length texts + 3

/-- Result of running `import_data`.  `exited c` models `exit(c)`;
`errorLogged` models the `except Exception` handler that logs the failure
and returns normally, leaving `self.data` as `None`; `ok data maxLen`
models a successful import that stores the wrapped records and the computed
`max_string_length`. -/
inductive ImportResult where
  | exited : Nat → ImportResult
  | errorLogged : ImportResult
  | ok : List (List Char) → Nat → ImportResult
deriving DecidableEq

/-- Body of the `try` block of `import_data`: read and parse the file at the
given location (`readFile loc = none` models any exception from `open` /
`json.load` / field access), compute `max_string_length`, and wrap every
record.  On failure the handler logs and falls through. -/
def import_file (readFile : String → Option (List (List Char)))
    (loc : String) : ImportResult :=
  match readFile loc with
  | none => ImportResult.errorLogged
  | some texts =>
      ImportResult.ok (texts.map wrap_record) (compute_max_string_length texts)

/-- The dispatch of `import_data` on the data-source identifier: the two
known identifiers select fixed file paths, anything else logs an error and
calls `exit(1)`. -/
def import_data (data_source : String)
    (readFile : String → Option (List (List Char))) : ImportResult :=
  if data_source = "trump" then
    import_file readFile "Documents/trump_tweets_2017.json"
  else if data_source = "alice" then
    import_file readFile "Documents/alice.json"
  else
    ImportResult.exited 1

/-- The unique character set built by `get_character_set`: concatenate all
(wrapped) records, take the set of characters and sort it
(`sorted(list(set(dataset_string)))`). -/
def get_character_set (data : List (List Char)) : List Char :=
  List.insertionSort (fun a b => a ≤ b) data.flatten.dedup

/-- The `char_to_int_dict` built by the first `enumerate` loop of
`get_character_set`: entry `(value, enumeration)` for each enumerated
character. -/
def char_to_int_dict (ucs : List Char) : List (Char × Nat) :=
  ucs.enum.map (fun p => (p.2, p.1))

/-- The `int_to_char_dict` built by the second `enumerate` loop of
`get_character_set`: entry `(index, character)` for each enumerated
character. -/
def int_to_char_dict (ucs : List Char) : List (Nat × Char) :=
  ucs.enum

/-- One iteration layer of `remove_extra_characters`.  Python's `for char in
list` iterates by an internal index that survives mutation of the list, so
the loop is: while the index is in range, inspect the element at the index,
possibly `list.remove` it (which would raise `ValueError` were the element
absent — modelled by `none`), and increment the index.  The fuel argument is
a structural bound on the number of iterations; `remove_extra_characters`
passes enough fuel, as proved below, so running out of fuel (`none`) is
unreachable. -/
def remove_loop (ds : List Char) (minC : Nat) :
    Nat → List Char → Nat → Option (List Char)
  | 0, l, i => if i < l.length then none else some l
  | fuel + 1, l, i =>
    if h : i < l.length then
      (if ds.count l[i] < minC then
        (if l[i] ∈ l then remove_loop ds minC fuel (l.erase l[i]) (i + 1)
         else none)
       else remove_loop ds minC fuel l (i + 1))
    else some l

/-- The `remove_extra_characters` routine (source default
`min_required_count = 250`): iterate over `unique_char_set` and remove every
character occurring fewer than `minC` times in the concatenated dataset
string. -/
def remove_extra_characters (ds : List Char) (minC : Nat)
    (l : List Char) : Option (List Char) :=
  remove_loop ds minC l.length l 0

/-- A row of `numpy.zeros((maxLen, vocab))`. -/
def zero_row (vocab : Nat) : List Nat :=
  List.replicate vocab 0

/-- A one-hot row: zeros with a single 1 written at column `j`, as produced
by `new_onehot[char_index][sequence[char_index]] = 1`. -/
def oneHotRow (vocab j : Nat) : List Nat :=
  (zero_row vocab).set j 1

/-- Write a 1 into row `i`, column `j` of a matrix, in place. -/
def matrix_set_row (m : List (List Nat)) (i j : Nat) : List (List Nat) :=
  m.set i ((m[i]?.getD []).set j 1)

/-- The write loop of `convert_to_onehot`: for each position of the
sequence, set the matrix entry at that row and the sequence value's
column. -/
def onehot_writes : List (List Nat) → List Nat → Nat → List (List Nat)
  | m, [], _ => m
  | m, idx :: rest, i => onehot_writes (matrix_set_row m i idx) rest (i + 1)

/-- `convert_to_onehot`: allocate `numpy.zeros((max_string_length,
vocab))` and run the write loop from position 0. -/
def convert_to_onehot (maxLen vocab : Nat) (sequence : List Nat) :
    List (List Nat) :=
  onehot_writes (List.replicate maxLen (zero_row vocab)) sequence 0

/-- Translation of a record into its integer sequence as done in `train`:
`char_to_int_dict[char]` for every character, a missing character raising
`KeyError` (modelled by `none`). -/
def encode_record (ucs : List Char) (r : List Char) : Option (List Nat) :=
  r.mapM (fun c => (char_to_int_dict ucs).lookup c)

/-- Encoding of a record: translate to the integer sequence and one-hot it,
as the feature-tensor construction of `train` does. -/
def encode (maxLen : Nat) (ucs : List Char) (r : List Char) :
    Option (List (List Nat)) :=
  (encode_record ucs r).map (convert_to_onehot maxLen ucs.length)

/-- Target construction of `train`: translate the record, `pop(0)` the first
element (an `IndexError` on an empty sequence is `none`), and append the
index of the pad sentinel. -/
def shift_for_target (ucs : List Char) (r : List Char) : Option (List Nat) :=
  (encode_record ucs r).bind (fun seq =>
    match seq with
    | [] => none
    | _ :: tl =>
        ((char_to_int_dict ucs).lookup nul).map (fun padIdx => tl ++ [padIdx]))

/-- The inner scan of the display loop of `generate_text`: the first column
index whose entry equals 1, `none` when the row is all zero. -/
def find_one_index : List Nat → Option Nat
  | [] => none
  | x :: xs => if x = 1 then some 0 else (find_one_index xs).map (fun k => k + 1)

/-- Decoding one position of an encoded tensor: find the index of the 1 in
the row at that position, `none` for a missing or all-zero row. -/
def decode_position (t : List (List Nat)) (pos : Nat) : Option Nat :=
  t[pos]?.bind find_one_index

/-- Accumulator loop behind `numpy.argmax`: index of the first strictly
greatest value seen so far. -/
def argmax_go : Nat → Nat → Rat → List Rat → Nat
  | _, bi, _, [] => bi
  | i, bi, bv, x :: xs =>
      if bv < x then argmax_go (i + 1) i x xs else argmax_go (i + 1) bi bv xs

/-- `numpy.argmax` over a score row: the index of the first occurrence of
the maximum; on an empty row `numpy` raises `ValueError`, modelled by
`none`. -/
def np_argmax : List Rat → Option Nat
  | [] => none
  | x :: xs => some (argmax_go 1 0 x xs)

/-- `append_onehot`: build a fresh one-hot row for the character (the
dictionary access happens before the `try`, so a missing character is an
uncaught `KeyError`, and a column index out of range would be an uncaught
`IndexError` from `numpy` — both `none`), then assign it to the requested
row inside `try ... except IndexError: pass`, so an out-of-range row write
leaves the tensor unchanged, matching the semantics of `List.set`. -/
def append_onehot (ucs : List Char) (old_onehot : List (List Nat))
    (row_index : Nat) (c : Char) : Option (List (List Nat)) :=
  match (char_to_int_dict ucs).lookup c with
  | none => none
  | some j =>
      if j < ucs.length then
        some (old_onehot.set row_index (oneHotRow ucs.length j))
      else none

/-- One iteration of the prediction part of the sampling loop of
`generate_text`, for a model abstracted as a function from the current
tensor to its predicted score matrix.  Reading the predicted row at the
current position may raise `IndexError`, which the surrounding
`except IndexError: pass` absorbs (state unchanged); `numpy.argmax` of an
empty row and a `KeyError` from either dictionary are not caught by that
handler and abort the call (`none`). -/
def gstep (ucs : List Char) (predict : List (List Nat) → List (List Rat))
    (st : List (List Nat)) (index : Nat) : Option (List (List Nat)) :=
  match (predict st)[index]? with
  | none => some st
  | some row =>
      match np_argmax row with
      | none => none
      | some pv =>
          match (int_to_char_dict ucs).lookup pv with
          | none => none
          | some ch => append_onehot ucs st (index + 1) ch

/-- The display loop at the end of each sampling iteration: walk the rows,
decode each to its 1-column and character, and stop at the first all-zero
row or failed reverse lookup (the `except KeyError: break`).  Returns the
pair (space-joined index string, concatenated character string). -/
def decode_rows (ucs : List Char) : List (List Nat) → String × String
  | [] => ("", "")
  | row :: rest =>
      match find_one_index row with
      | none => ("", "")
      | some j =>
          match (int_to_char_dict ucs).lookup j with
          | none => ("", "")
          | some c =>
              let r := decode_rows ucs rest
              (toString j ++ " " ++ r.1, String.singleton c ++ r.2)

/-- The main loop of `generate_text` over the positions: perform the
prediction step, then recompute the two display strings from the updated
tensor (the strings of the previous iteration are discarded). -/
def run_steps (ucs : List Char) (predict : List (List Nat) → List (List Rat)) :
    List Nat → List (List Nat) → String → String →
    Option (List (List Nat) × String × String)
  | [], st, iS, cS => some (st, iS, cS)
  | i :: rest, st, _, _ =>
      match gstep ucs predict st i with
      | none => none
      | some st2 =>
          run_steps ucs predict rest st2 (decode_rows ucs st2).1
            (decode_rows ucs st2).2

/-- `generate_text`: allocate the all-zero tensor, write the start sentinel
one-hot into row 0 through `append_onehot`, run `max_string_length` steps,
and return the final pair of display strings. -/
def generate_text (maxLen : Nat) (ucs : List Char)
    (predict : List (List Nat) → List (List Rat)) : Option (String × String) :=
  match append_onehot ucs (List.replicate maxLen (zero_row ucs.length)) 0 soh with
  | none => none
  | some st1 =>
      match run_steps ucs predict (List.range maxLen) st1 "" "" with
      | none => none
      | some r => some (r.2.1, r.2.2)

/-- Invariant of the sampling tensor of `generate_text`: row 0 holds the
one-hot of the start sentinel, and every row is either all zero or a
one-hot of some valid vocabulary index. -/
def sampler_inv (ucs : List Char) (st : List (List Nat)) : Prop :=
  st[0]? = some (oneHotRow ucs.length (ucs.indexOf soh))
  ∧ ∀ row ∈ st, row = zero_row ucs.length
      ∨ ∃ j, j < ucs.length ∧ row = oneHotRow ucs.length j

/-- Observable per-epoch side effects of the training loop of `train`. -/
inductive TrainEvent where
  | fit : TrainEvent
  | sampleLog : Nat → TrainEvent
  | saveWeights : String → TrainEvent
deriving DecidableEq

/-- Name of a weight checkpoint file, as produced by the format string of
`train` applied to the vocabulary size, the epoch index, and the formatted
timestamp. -/
def weight_file_name (vocabSize epoch : Nat) (timestamp : String) : String :=
  "Documents/Weights/4LSTM_Size" ++ toString vocabSize ++ "_atEpoch"
    ++ toString epoch ++ "_" ++ timestamp

/-- The side effects of epoch `index` of the training loop: one fit step,
a sampling run logged when `index % 10 == 0`, and a weight save when
`index % 50 == 0`. -/
def epoch_events (vocabSize : Nat) (timestamp : String) (index : Nat) :
    List TrainEvent :=
  [TrainEvent.fit]
    ++ (if index % 10 = 0 then [TrainEvent.sampleLog index] else [])
    ++ (if index % 50 = 0 then
          [TrainEvent.saveWeights (weight_file_name vocabSize index timestamp)]
        else [])

/-- The full side-effect trace of `train` over `numEpochs` epochs. -/
def train_events (vocabSize : Nat) (timestamp : String) (numEpochs : Nat) :
    List TrainEvent :=
  (List.range numEpochs).flatMap (epoch_events vocabSize timestamp)

/-! ### Helper lemmas -/

/-- The record-length fold of `import_data` computes an upper bound of all
record lengths that is either the initial accumulator or one of the record
lengths. -/
theorem foldl_len_max_spec (texts : List (List Char)) : ∀ acc : Nat,
    (texts.foldl (fun a t => if t.length > a then t.length else a) acc = acc
      ∨ ∃ t ∈ texts,
          texts.foldl (fun a t => if t.length > a then t.length else a) acc
            = t.length)
    ∧ acc ≤ texts.foldl (fun a t => if t.length > a then t.length else a) acc
    ∧ ∀ t ∈ texts,
        t.length ≤ texts.foldl (fun a t => if t.length > a then t.length else a) acc := by
  induction texts with
  | nil =>
    intro acc
    refine ⟨Or.inl rfl, le_refl _, ?_⟩
    intro t ht
    cases ht
  | cons x xs ih =>
    intro acc
    simp only [List.foldl_cons]
    obtain ⟨h1, h2, h3⟩ := ih (if x.length > acc then x.length else acc)
    refine ⟨?_, ?_, ?_⟩
    · cases h1 with
      | inl h =>
        by_cases hx : x.length > acc
        · exact Or.inr ⟨x, List.mem_cons_self x xs, by rw [h, if_pos hx]⟩
        · exact Or.inl (by rw [h, if_neg hx])
      | inr h =>
        obtain ⟨t, ht, he⟩ := h
        exact Or.inr ⟨t, List.mem_cons_of_mem x ht, he⟩
    · refine le_trans ?_ h2
      split <;> omega
    · intro t ht
      cases List.mem_cons.mp ht with
      | inl h =>
        subst h
        refine le_trans ?_ h2
        split <;> omega
      | inr h => exact h3 t h

/-- Sufficient fuel makes `remove_loop` return a value: the index grows by
one per iteration while the list never grows, so `l.length - i` bounds the
remaining iterations, and the element removed is always present (it was
just read from the list), so the modelled `ValueError` cannot fire. -/
theorem remove_loop_isSome (ds : List Char) (minC : Nat) :
    ∀ (fuel : Nat) (l : List Char) (i : Nat), l.length - i ≤ fuel →
      (remove_loop ds minC fuel l i).isSome := by
  intro fuel
  induction fuel with
  | zero =>
    intro l i h
    have hni : ¬ i < l.length := by omega
    simp [remove_loop, hni]
  | succ fuel ih =>
    intro l i h
    rw [remove_loop]
    by_cases hi : i < l.length
    · rw [dif_pos hi]
      have hmem : l[i] ∈ l := List.getElem_mem hi
      by_cases hc : ds.count l[i] < minC
      · rw [if_pos hc, if_pos hmem]
        refine ih (l.erase l[i]) (i + 1) ?_
        rw [List.length_erase_of_mem hmem]
        omega
      · rw [if_neg hc]
        refine ih l (i + 1) ?_
        omega
    · rw [dif_neg hi]
      rfl

/-- Looking up a character in the swapped enumeration of a list returns the
offset plus the index of its first occurrence. -/
theorem lookup_swap_enumFrom (c : Char) :
    ∀ (l : List Char) (n : Nat), c ∈ l →
      ((List.enumFrom n l).map (fun p => (p.2, p.1))).lookup c
        = some (n + l.indexOf c) := by
  intro l
  induction l with
  | nil =>
    intro n h
    cases h
  | cons a l ih =>
    intro n h
    rw [List.enumFrom_cons]
    simp only [List.map_cons, List.lookup_cons]
    by_cases hca : c = a
    · subst hca
      simp [List.indexOf_cons]
    · have hm : c ∈ l := by
        cases List.mem_cons.mp h with
        | inl h2 => exact absurd h2 hca
        | inr h2 => exact h2
      have hbeq : (c == a) = false := by simp [hca]
      have hbeq2 : (a == c) = false := by simp [Ne.symm hca]
      simp only [hbeq]
      rw [ih (n + 1) hm, List.indexOf_cons, hbeq2]
      simp only [cond_false]
      congr 1
      omega

/-- Looking up an index in the enumeration of a list returns the element at
that index, shifted by the enumeration offset. -/
theorem lookup_enumFrom (l : List Char) :
    ∀ (n i : Nat), (List.enumFrom n l).lookup (n + i) = l[i]? := by
  induction l with
  | nil =>
    intro n i
    simp [List.enumFrom, List.lookup]
  | cons a l ih =>
    intro n i
    rw [List.enumFrom_cons, List.lookup_cons]
    cases i with
    | zero => simp
    | succ j =>
      have hbeq : (n + (j + 1) == n) = false := by
        simp
      simp only [hbeq]
      rw [show n + (j + 1) = (n + 1) + j by omega, ih (n + 1) j]
      simp

/-- The `char_to_int_dict` lookup of a character of the vocabulary is the
index of its first occurrence. -/
theorem lookup_char_to_int (ucs : List Char) (c : Char) (h : c ∈ ucs) :
    (char_to_int_dict ucs).lookup c = some (ucs.indexOf c) := by
  have h2 := lookup_swap_enumFrom c ucs 0 h
  unfold char_to_int_dict
  rw [show ucs.enum = List.enumFrom 0 ucs from rfl, h2]
  simp

/-- The `int_to_char_dict` lookup of an index is the element of the
vocabulary at that index. -/
theorem lookup_int_to_char (ucs : List Char) (i : Nat) :
    (int_to_char_dict ucs).lookup i = ucs[i]? := by
  have h2 := lookup_enumFrom ucs 0 i
  unfold int_to_char_dict
  rw [show ucs.enum = List.enumFrom 0 ucs from rfl]
  simpa using h2

/-- The element at the index of the first occurrence of a member is that
member. -/
theorem getElem_indexOf_of_mem (l : List Char) (c : Char) (h : c ∈ l) :
    l[l.indexOf c]? = some c := by
  have h2 : l.indexOf c < l.length := List.indexOf_lt_length.mpr h
  rw [List.getElem?_eq_getElem h2]
  simp [List.indexOf_get]

/-- Reading a row of a matrix after an in-place write into another row, or
after a write into the same row. -/
theorem matrix_set_row_getElem_self (m : List (List Nat)) (i j : Nat) :
    (matrix_set_row m i j)[i]? = m[i]?.map (fun row => row.set j 1) := by
  unfold matrix_set_row
  by_cases h : i < m.length
  · rw [List.getElem?_set_self h, List.getElem?_eq_getElem h]
    simp
  · have hnone : m[i]? = none := List.getElem?_eq_none (by omega)
    rw [List.getElem?_set]
    simp [h, hnone]

/-- Writes into other rows are invisible. -/
theorem matrix_set_row_getElem_ne (m : List (List Nat)) (i j k : Nat)
    (h : i ≠ k) : (matrix_set_row m i j)[k]? = m[k]? := by
  unfold matrix_set_row
  exact List.getElem?_set_ne h

/-- Row-wise characterisation of the write loop of `convert_to_onehot`:
each row in the written range receives exactly one write, of a 1 at the
column given by the sequence. -/
theorem onehot_writes_getElem :
    ∀ (seq : List Nat) (m : List (List Nat)) (n i : Nat),
      (onehot_writes m seq n)[i]? =
        if n ≤ i ∧ i < n + seq.length then
          m[i]?.map (fun row => row.set (seq.getD (i - n) 0) 1)
        else m[i]? := by
  intro seq
  induction seq with
  | nil =>
    intro m n i
    rw [onehot_writes]
    simp only [List.length_nil]
    rw [if_neg (by omega)]
  | cons idx rest ih =>
    intro m n i
    rw [onehot_writes, ih]
    simp only [List.length_cons]
    by_cases hin : i = n
    · subst hin
      rw [if_neg (by omega), if_pos (by omega), matrix_set_row_getElem_self]
      simp
    · by_cases hrange : n + 1 ≤ i ∧ i < n + 1 + rest.length
      · rw [if_pos hrange, if_pos (by omega)]
        rw [matrix_set_row_getElem_ne m n idx i (Ne.symm hin)]
        have harith : i - n = (i - (n + 1)) + 1 := by omega
        rw [harith, List.getD_cons_succ]
      · rw [if_neg hrange, if_neg (by omega)]
        exact matrix_set_row_getElem_ne m n idx i (Ne.symm hin)

/-- Rows of `convert_to_onehot`: a one-hot row at the positions covered by
the sequence, an all-zero row at the later positions up to
`max_string_length`. -/
theorem convert_to_onehot_getElem (maxLen vocab : Nat) (seq : List Nat)
    (i : Nat) (hi : i < maxLen) :
    (convert_to_onehot maxLen vocab seq)[i]? =
      some (if i < seq.length then oneHotRow vocab (seq.getD i 0)
            else zero_row vocab) := by
  unfold convert_to_onehot
  rw [onehot_writes_getElem]
  by_cases h : i < seq.length
  · rw [if_pos (by omega), if_pos h, List.getElem?_replicate, if_pos hi]
    simp [oneHotRow]
  · rw [if_neg (by omega), List.getElem?_replicate, if_pos hi, if_neg h]

/-- The scan for a 1 finds nothing in an all-zero row. -/
theorem find_one_index_zero_row (vocab : Nat) :
    find_one_index (zero_row vocab) = none := by
  induction vocab with
  | zero => rfl
  | succ v ih =>
    unfold zero_row at *
    rw [List.replicate_succ, find_one_index, if_neg (by omega), ih]
    rfl

/-- The scan for a 1 in a one-hot row finds exactly the written column. -/
theorem find_one_index_oneHotRow :
    ∀ (j vocab : Nat), j < vocab →
      find_one_index (oneHotRow vocab j) = some j := by
  intro j
  induction j with
  | zero =>
    intro vocab h
    cases vocab with
    | zero => omega
    | succ v =>
      unfold oneHotRow zero_row
      rw [List.replicate_succ]
      rfl
  | succ j ih =>
    intro vocab h
    cases vocab with
    | zero => omega
    | succ v =>
      unfold oneHotRow zero_row
      rw [List.replicate_succ]
      show find_one_index (0 :: (List.replicate v 0).set j 1) = some (j + 1)
      rw [find_one_index, if_neg (by omega)]
      have h2 := ih v (by omega)
      unfold oneHotRow zero_row at h2
      rw [h2]
      rfl

/-- When every character of a record occurs in the vocabulary, its
translation through `char_to_int_dict` succeeds and yields the per-character
first-occurrence indices. -/
theorem encode_record_eq_map (ucs : List Char) :
    ∀ (r : List Char), (∀ c ∈ r, c ∈ ucs) →
      encode_record ucs r = some (r.map (fun c => ucs.indexOf c)) := by
  intro r
  induction r with
  | nil =>
    intro _
    rfl
  | cons a r ih =>
    intro h
    unfold encode_record at *
    rw [List.mapM_cons, lookup_char_to_int ucs a (h a (List.mem_cons_self a r)),
      ih (fun c hc => h c (List.mem_cons_of_mem a hc))]
    rfl

/-- The index tracked by the argmax accumulator stays below the offset plus
the number of remaining entries. -/
theorem argmax_go_lt :
    ∀ (xs : List Rat) (i bi : Nat) (bv : Rat), bi < i →
      argmax_go i bi bv xs < i + xs.length := by
  intro xs
  induction xs with
  | nil =>
    intro i bi bv h
    rw [argmax_go]
    simpa using h
  | cons x xs ih =>
    intro i bi bv h
    rw [argmax_go]
    simp only [List.length_cons]
    by_cases hlt : bv < x
    · rw [if_pos hlt]
      have h2 := ih (i + 1) i x (Nat.lt_succ_self i)
      omega
    · rw [if_neg hlt]
      have h2 := ih (i + 1) bi bv (by omega)
      omega

/-- `numpy.argmax` of a non-empty row returns an index within the row. -/
theorem np_argmax_lt (row : List Rat) (pv : Nat)
    (h : np_argmax row = some pv) : pv < row.length := by
  cases row with
  | nil => cases h
  | cons x xs =>
    rw [np_argmax] at h
    injection h with h2
    rw [← h2]
    have h3 := argmax_go_lt xs 1 0 x Nat.one_pos
    simp only [List.length_cons]
    omega

/-- On a character of the vocabulary, `append_onehot` succeeds and writes
the one-hot of its index into the requested row. -/
theorem append_onehot_of_mem (ucs : List Char) (st : List (List Nat))
    (row_index : Nat) (c : Char) (h : c ∈ ucs) :
    append_onehot ucs st row_index c
      = some (st.set row_index (oneHotRow ucs.length (ucs.indexOf c))) := by
  unfold append_onehot
  rw [lookup_char_to_int ucs c h]
  simp [List.indexOf_lt_length.mpr h]

/-- A successful `append_onehot` always produced a write of some valid
one-hot row. -/
theorem append_onehot_eq_some (ucs : List Char) (st : List (List Nat))
    (row_index : Nat) (c : Char) (st2 : List (List Nat))
    (h : append_onehot ucs st row_index c = some st2) :
    ∃ j, j < ucs.length ∧ st2 = st.set row_index (oneHotRow ucs.length j) := by
  unfold append_onehot at h
  split at h
  · cases h
  · rename_i j hl
    split at h
    · rename_i hj
      injection h with h2
      exact ⟨j, hj, h2.symm⟩
    · cases h

/-- One sampling step on a model whose predicted rows have the vocabulary
width always succeeds and keeps the tensor height. -/
theorem gstep_some (ucs : List Char)
    (predict : List (List Nat) → List (List Rat)) (st : List (List Nat))
    (i : Nat) (hv : 0 < ucs.length)
    (hrow : ∀ row ∈ predict st, row.length = ucs.length) :
    ∃ st2, gstep ucs predict st i = some st2 ∧ st2.length = st.length := by
  cases hr : (predict st)[i]? with
  | none =>
    refine ⟨st, ?_, rfl⟩
    unfold gstep
    rw [hr]
  | some row =>
    have hrl : row.length = ucs.length := hrow row (List.getElem?_mem hr)
    cases row with
    | nil =>
      rw [List.length_nil] at hrl
      omega
    | cons x xs =>
      have hpv : argmax_go 1 0 x xs < ucs.length := by
        have h3 := argmax_go_lt xs 1 0 x Nat.one_pos
        simp only [List.length_cons] at hrl
        omega
      have h1 : gstep ucs predict st i
          = match (int_to_char_dict ucs).lookup (argmax_go 1 0 x xs) with
            | none => none
            | some ch => append_onehot ucs st (i + 1) ch := by
        unfold gstep
        rw [hr]
        rfl
      have h2 := lookup_int_to_char ucs (argmax_go 1 0 x xs)
      rw [List.getElem?_eq_getElem hpv] at h2
      rw [h2] at h1
      have h3 : gstep ucs predict st i
          = append_onehot ucs st (i + 1) ucs[argmax_go 1 0 x xs] := h1
      rw [append_onehot_of_mem ucs st (i + 1) ucs[argmax_go 1 0 x xs]
        (List.getElem_mem hpv)] at h3
      exact ⟨_, h3, List.length_set st _ _⟩

/-- The sampling loop on such a model always returns a final tensor and its
two display strings. -/
theorem run_steps_some (ucs : List Char)
    (predict : List (List Nat) → List (List Rat)) (hv : 0 < ucs.length)
    (hrow : ∀ st, ∀ row ∈ predict st, row.length = ucs.length) :
    ∀ (l : List Nat) (st : List (List Nat)) (iS cS : String),
      (run_steps ucs predict l st iS cS).isSome := by
  intro l
  induction l with
  | nil =>
    intro st iS cS
    rfl
  | cons i rest ih =>
    intro st iS cS
    obtain ⟨st2, hg, _⟩ := gstep_some ucs predict st i hv (hrow st)
    rw [run_steps, hg]
    exact ih st2 _ _

/-- One sampling step preserves the tensor invariant (in particular it
never writes into row 0, since the write target is `index + 1`). -/
theorem gstep_preserves_inv (ucs : List Char)
    (predict : List (List Nat) → List (List Rat)) (st : List (List Nat))
    (i : Nat) (st2 : List (List Nat)) (hinv : sampler_inv ucs st)
    (h : gstep ucs predict st i = some st2) : sampler_inv ucs st2 := by
  unfold gstep at h
  split at h
  · injection h with h2
    rw [← h2]
    exact hinv
  · split at h
    · cases h
    · split at h
      · cases h
      · rename_i ch hl
        obtain ⟨j, hj, hst2⟩ := append_onehot_eq_some ucs st (i + 1) ch st2 h
        subst hst2
        constructor
        · rw [List.getElem?_set_ne (by omega)]
          exact hinv.1
        · intro r hrm
          cases List.mem_or_eq_of_mem_set hrm with
          | inl h2 => exact hinv.2 r h2
          | inr h2 => exact Or.inr ⟨j, hj, h2⟩

/-- The initial tensor of `generate_text` — zeros with the start-sentinel
one-hot written into row 0 — satisfies the invariant. -/
theorem init_inv (maxLen : Nat) (ucs : List Char) (hs : soh ∈ ucs)
    (hml : 0 < maxLen) (st1 : List (List Nat))
    (h : append_onehot ucs (List.replicate maxLen (zero_row ucs.length)) 0 soh
        = some st1) : sampler_inv ucs st1 := by
  rw [append_onehot_of_mem ucs _ 0 soh hs] at h
  injection h with h2
  rw [← h2]
  constructor
  · exact List.getElem?_set_self (by simpa using hml)
  · intro r hrm
    cases List.mem_or_eq_of_mem_set hrm with
    | inl h3 => exact Or.inl (List.eq_of_mem_replicate h3)
    | inr h3 => exact Or.inr ⟨ucs.indexOf soh, List.indexOf_lt_length.mpr hs, h3⟩

/-- The sampling loop preserves the invariant, and after at least one
iteration the returned display strings are the decode of the final
tensor. -/
theorem run_steps_inv (ucs : List Char)
    (predict : List (List Nat) → List (List Rat)) :
    ∀ (l : List Nat) (st : List (List Nat)) (iS cS : String)
      (out : List (List Nat) × String × String),
      run_steps ucs predict l st iS cS = some out → sampler_inv ucs st →
      sampler_inv ucs out.1
      ∧ (l = [] → out = (st, iS, cS))
      ∧ (l ≠ [] → out.2 = decode_rows ucs out.1) := by
  intro l
  induction l with
  | nil =>
    intro st iS cS out h hinv
    rw [run_steps] at h
    injection h with h2
    rw [← h2]
    exact ⟨hinv, fun _ => rfl, fun hne => absurd rfl hne⟩
  | cons i rest ih =>
    intro st iS cS out h hinv
    rw [run_steps] at h
    split at h
    · cases h
    · rename_i st2 hg
      have hinv2 := gstep_preserves_inv ucs predict st i st2 hinv hg
      obtain ⟨ha, hb, hc⟩ := ih st2 (decode_rows ucs st2).1 (decode_rows ucs st2).2
        out h hinv2
      refine ⟨ha, fun hcon => absurd hcon (List.cons_ne_nil i rest), fun _ => ?_⟩
      cases rest with
      | nil =>
        rw [hb rfl]
      | cons i2 rest2 =>
        exact hc (List.cons_ne_nil i2 rest2)

/-- Appending a singleton character string prepends that character to the
data of the remaining string. -/
theorem singleton_append_data (c : Char) (s : String) :
    (String.singleton c ++ s).data = c :: s.data := by
  cases s
  rfl

/-- The character string produced by the decode loop starts with the
character of the one-hot stored in row 0. -/
theorem decode_rows_head (ucs : List Char) (st : List (List Nat)) (j : Nat)
    (c : Char) (h0 : st[0]? = some (oneHotRow ucs.length j))
    (hj : j < ucs.length) (hc : ucs[j]? = some c) :
    (decode_rows ucs st).2.data.head? = some c := by
  cases st with
  | nil =>
    rw [List.getElem?_nil] at h0
    cases h0
  | cons row rest =>
    rw [List.getElem?_cons_zero] at h0
    injection h0 with h2
    have hfind : find_one_index row = some j := by
      rw [h2]
      exact find_one_index_oneHotRow j ucs.length hj
    have hlook : (int_to_char_dict ucs).lookup j = some c := by
      rw [lookup_int_to_char]
      exact hc
    rw [decode_rows]
    split
    · rename_i hnone
      rw [hfind] at hnone
      cases hnone
    · rename_i j2 hsome
      rw [hfind] at hsome
      injection hsome with hj2
      subst hj2
      split
      · rename_i hnone2
        rw [hlook] at hnone2
        cases hnone2
      · rename_i c2 hsome2
        rw [hlook] at hsome2
        injection hsome2 with hc2
        subst hc2
        simp only [singleton_append_data]
        rfl

/-- An all-zero row contains no entry equal to 1. -/
theorem count_zero_row (vocab : Nat) : (zero_row vocab).count 1 = 0 := by
  simp [zero_row, List.count_replicate]

/-- A one-hot row contains exactly one entry equal to 1. -/
theorem count_oneHotRow :
    ∀ (j vocab : Nat), j < vocab → (oneHotRow vocab j).count 1 = 1 := by
  intro j
  induction j with
  | zero =>
    intro vocab h
    cases vocab with
    | zero => omega
    | succ v =>
      unfold oneHotRow zero_row
      rw [List.replicate_succ]
      show List.count 1 (1 :: List.replicate v 0) = 1
      rw [List.count_cons]
      simp [List.count_replicate]
  | succ j ih =>
    intro vocab h
    cases vocab with
    | zero => omega
    | succ v =>
      unfold oneHotRow zero_row
      rw [List.replicate_succ]
      show List.count 1 (0 :: (List.replicate v 0).set j 1) = 1
      rw [List.count_cons]
      have h2 := ih v (by omega)
      unfold oneHotRow zero_row at h2
      simp [h2]

/-! ### Claim theorems -/

/-- C4: for a non-empty corpus, `max_string_length` computed at import is
the maximum raw record length plus 3, every wrapped record is the raw text
with a leading start sentinel and trailing end and pad sentinels, and every
wrapped record length is bounded by `max_string_length`. -/
theorem import_max_length_spec (texts : List (List Char)) (hne : texts ≠ []) :
    (∃ t ∈ texts, compute_max_string_length texts = t.length + 3)
    ∧ (∀ t ∈ texts, t.length + 3 ≤ compute_max_string_length texts)
    ∧ (∀ t, wrap_record t = soh :: (t ++ [stx, nul])
        ∧ (wrap_record t).length = t.length + 3)
    ∧ (∀ t ∈ texts, (wrap_record t).length ≤ compute_max_string_length texts) := by
  obtain ⟨h1, _, h3⟩ := foldl_len_max_spec texts 0
  have hwrap : ∀ t : List Char, wrap_record t = soh :: (t ++ [stx, nul])
      ∧ (wrap_record t).length = t.length + 3 := by
    intro t
    refine ⟨rfl, ?_⟩
    simp [wrap_record]
  have hbound : ∀ t ∈ texts, t.length + 3 ≤ compute_max_string_length texts := by
    intro t ht
    have := h3 t ht
    unfold compute_max_string_length max_raw_length
    omega
  refine ⟨?_, hbound, hwrap, ?_⟩
  · cases h1 with
    | inl h =>
      obtain ⟨t0, ht0⟩ := List.exists_mem_of_ne_nil texts hne
      have hle := h3 t0 ht0
      rw [h] at hle
      refine ⟨t0, ht0, ?_⟩
      unfold compute_max_string_length max_raw_length
      rw [h]
      omega
    | inr h =>
      obtain ⟨t, ht, he⟩ := h
      refine ⟨t, ht, ?_⟩
      unfold compute_max_string_length max_raw_length
      rw [he]
  · intro t ht
    rw [(hwrap t).2]
    exact hbound t ht

/-- C4 witness: raw record lengths 5, 12 and 3 give
`max_string_length = 15`, realised at the second record. -/
theorem import_max_length_spec_witness :
    ([List.replicate 5 'a', List.replicate 12 'b', List.replicate 3 'c']
        ≠ ([] : List (List Char)))
    ∧ compute_max_string_length
        [List.replicate 5 'a', List.replicate 12 'b', List.replicate 3 'c'] = 15
    ∧ ((∃ t ∈ [List.replicate 5 'a', List.replicate 12 'b', List.replicate 3 'c'],
          compute_max_string_length
            [List.replicate 5 'a', List.replicate 12 'b', List.replicate 3 'c']
            = t.length + 3)
        ∧ (∀ t ∈ [List.replicate 5 'a', List.replicate 12 'b', List.replicate 3 'c'],
            t.length + 3 ≤ compute_max_string_length
              [List.replicate 5 'a', List.replicate 12 'b', List.replicate 3 'c'])
        ∧ (∀ t, wrap_record t = soh :: (t ++ [stx, nul])
            ∧ (wrap_record t).length = t.length + 3)
        ∧ (∀ t ∈ [List.replicate 5 'a', List.replicate 12 'b', List.replicate 3 'c'],
            (wrap_record t).length ≤ compute_max_string_length
              [List.replicate 5 'a', List.replicate 12 'b', List.replicate 3 'c'])) :=
  ⟨by decide, by decide,
    import_max_length_spec
      [List.replicate 5 'a', List.replicate 12 'b', List.replicate 3 'c']
      (by decide)⟩

/-- C10: `remove_extra_characters` always returns (no exception is raised:
the element handed to `list.remove` is always present), yet it can leave a
character occurring fewer than `min_required_count` times in the set,
because removing an element shifts the iteration past the following one:
on the dataset string "ab" with both characters rare, the character b
survives. -/
theorem remove_extra_characters_spec :
    (∀ (ds : List Char) (minC : Nat) (l : List Char),
        (remove_extra_characters ds minC l).isSome)
    ∧ remove_extra_characters ['a', 'b'] 250 ['a', 'b'] = some ['b']
    ∧ List.count 'b' ['a', 'b'] < 250 := by
  refine ⟨?_, by decide, by decide⟩
  intro ds minC l
  exact remove_loop_isSome ds minC l.length l 0 (by omega)

/-- C2 counterexample: with the dataset file unreadable, `import_data` on
the recognised identifier "trump" runs the logging exception handler and
returns normally; it does not terminate the process (the only process
termination in `import_data` is `exit(1)` on an unknown identifier). -/
theorem import_data_counterexample :
    import_data "trump" (fun _ => none) = ImportResult.errorLogged
    ∧ ImportResult.errorLogged ≠ ImportResult.exited 1 := by
  refine ⟨rfl, ?_⟩
  intro h
  cases h

/-- C2 amended: an unrecognised data-source identifier terminates the
process with `exit(1)`, while an unreadable or unparseable dataset file is
caught inside `import_data`, logged, and the method returns normally with
the dataset left undefined (no termination inside data import). -/
theorem import_data_error_handling (ds : String)
    (readFile : String → Option (List (List Char))) :
    (ds ≠ "trump" → ds ≠ "alice" → import_data ds readFile = ImportResult.exited 1)
    ∧ (readFile "Documents/trump_tweets_2017.json" = none →
        import_data "trump" readFile = ImportResult.errorLogged)
    ∧ (readFile "Documents/alice.json" = none →
        import_data "alice" readFile = ImportResult.errorLogged) := by
  refine ⟨?_, ?_, ?_⟩
  · intro h1 h2
    unfold import_data
    rw [if_neg h1, if_neg h2]
  · intro h
    unfold import_data import_file
    rw [if_pos rfl, h]
  · intro h
    unfold import_data import_file
    rw [if_neg (by decide), if_pos rfl, h]

/-- C2 witness: the unknown identifier "x" exits with status 1, and a
failing read on the "trump" identifier reaches the logged-and-return
path. -/
theorem import_data_error_handling_witness :
    import_data "x" (fun _ => none) = ImportResult.exited 1
    ∧ import_data "trump" (fun _ => none) = ImportResult.errorLogged :=
  ⟨(import_data_error_handling "x" (fun _ => none)).1 (by decide) (by decide),
    (import_data_error_handling "trump" (fun _ => none)).2.1 rfl⟩

/-- C8: within the training loop, the sampler is invoked and its output
logged exactly at the epochs divisible by 10, weights are saved exactly at
the epochs divisible by 50, and the checkpoint file name follows the
pattern layer-count (4), vocabulary size, epoch index, timestamp. -/
theorem train_schedule_spec (vocabSize numEpochs i : Nat) (ts : String)
    (hi : i < numEpochs) :
    ((TrainEvent.sampleLog i ∈ train_events vocabSize ts numEpochs) ↔ i % 10 = 0)
    ∧ ((∃ s, TrainEvent.saveWeights s ∈ epoch_events vocabSize ts i) ↔ i % 50 = 0)
    ∧ (∀ s, TrainEvent.saveWeights s ∈ epoch_events vocabSize ts i →
        s = weight_file_name vocabSize i ts)
    ∧ weight_file_name vocabSize i ts
        = "Documents/Weights/" ++ toString (4 : Nat) ++ "LSTM_Size"
            ++ toString vocabSize ++ "_atEpoch" ++ toString i ++ "_" ++ ts := by
  have hmem : ∀ j s, TrainEvent.saveWeights s ∈ epoch_events vocabSize ts j ↔
      (j % 50 = 0 ∧ s = weight_file_name vocabSize j ts) := by
    intro j s
    unfold epoch_events
    by_cases h10 : j % 10 = 0 <;> by_cases h50 : j % 50 = 0 <;>
      simp [h10, h50, eq_comm]
  have hsl : ∀ j, TrainEvent.sampleLog i ∈ epoch_events vocabSize ts j ↔
      (j % 10 = 0 ∧ j = i) := by
    intro j
    unfold epoch_events
    by_cases h10 : j % 10 = 0 <;> by_cases h50 : j % 50 = 0 <;>
      simp [h10, h50, eq_comm]
  refine ⟨?_, ?_, ?_, rfl⟩
  · unfold train_events
    rw [List.mem_flatMap]
    constructor
    · rintro ⟨j, _, hj⟩
      obtain ⟨hj10, hji⟩ := (hsl j).mp hj
      rw [hji] at hj10
      exact hj10
    · intro h
      exact ⟨i, List.mem_range.mpr hi, (hsl i).mpr ⟨h, rfl⟩⟩
  · constructor
    · rintro ⟨s, hs⟩
      exact ((hmem i s).mp hs).1
    · intro h
      exact ⟨weight_file_name vocabSize i ts, (hmem i _).mpr ⟨h, rfl⟩⟩
  · intro s hs
    exact ((hmem i s).mp hs).2

/-- C8 witness: with one epoch, epoch 0 both logs a sampling run and saves
weights, under the stated schedule. -/
theorem train_schedule_spec_witness :
    (0 < 1)
    ∧ (((TrainEvent.sampleLog 0 ∈ train_events 7 "ts" 1) ↔ 0 % 10 = 0)
        ∧ ((∃ s, TrainEvent.saveWeights s ∈ epoch_events 7 "ts" 0) ↔ 0 % 50 = 0)
        ∧ (∀ s, TrainEvent.saveWeights s ∈ epoch_events 7 "ts" 0 →
            s = weight_file_name 7 0 "ts")
        ∧ weight_file_name 7 0 "ts"
            = "Documents/Weights/" ++ toString (4 : Nat) ++ "LSTM_Size"
                ++ toString 7 ++ "_atEpoch" ++ toString 0 ++ "_" ++ "ts") :=
  ⟨by decide, train_schedule_spec 7 1 0 "ts" (by decide)⟩

/-- C1: encoding a record whose length fits in `max_string_length` and
whose characters all occur in the vocabulary succeeds, and decoding the
tensor position-wise finds the vocabulary index of each character for the
positions covered by the record, and an all-zero row with no index for
every later position below `max_string_length`. -/
theorem round_trip_encode_decode (maxLen : Nat) (ucs : List Char)
    (r : List Char) (hlen : r.length ≤ maxLen) (hmem : ∀ c ∈ r, c ∈ ucs) :
    ∃ t, encode maxLen ucs r = some t
      ∧ (∀ i, ∀ hi : i < r.length,
          decode_position t i = some (ucs.indexOf r[i]))
      ∧ (∀ i, r.length ≤ i → i < maxLen →
          t[i]? = some (zero_row ucs.length) ∧ decode_position t i = none) := by
  refine ⟨convert_to_onehot maxLen ucs.length (r.map (fun c => ucs.indexOf c)),
    ?_, ?_, ?_⟩
  · unfold encode
    rw [encode_record_eq_map ucs r hmem]
    rfl
  · intro i hi
    unfold decode_position
    rw [convert_to_onehot_getElem maxLen ucs.length _ i (by omega)]
    rw [if_pos (by simpa using hi)]
    have hgetD : (r.map (fun c => ucs.indexOf c)).getD i 0 = ucs.indexOf r[i] := by
      rw [List.getD_eq_getElem?_getD, List.getElem?_map, List.getElem?_eq_getElem hi]
      rfl
    rw [hgetD]
    have hjlt : ucs.indexOf r[i] < ucs.length :=
      List.indexOf_lt_length.mpr (hmem _ (List.getElem_mem hi))
    simp [find_one_index_oneHotRow _ _ hjlt]
  · intro i h1 h2
    have hcond : ¬ i < (r.map (fun c => ucs.indexOf c)).length := by
      simp only [List.length_map]
      omega
    constructor
    · rw [convert_to_onehot_getElem maxLen ucs.length _ i h2, if_neg hcond]
    · unfold decode_position
      rw [convert_to_onehot_getElem maxLen ucs.length _ i h2, if_neg hcond]
      simp [find_one_index_zero_row]

/-- C1 witness: the wrapped record of the raw text "hi" over the five-symbol
vocabulary decodes back position by position, with the sixth position an
all-zero row. -/
theorem round_trip_encode_decode_witness :
    (([soh, 'h', 'i', stx, nul] : List Char).length ≤ 6)
    ∧ (∀ c ∈ ([soh, 'h', 'i', stx, nul] : List Char),
        c ∈ ([nul, soh, stx, 'h', 'i'] : List Char))
    ∧ (∃ t, encode 6 [nul, soh, stx, 'h', 'i'] [soh, 'h', 'i', stx, nul] = some t
        ∧ (∀ i, ∀ hi : i < ([soh, 'h', 'i', stx, nul] : List Char).length,
            decode_position t i
              = some (([nul, soh, stx, 'h', 'i'] : List Char).indexOf
                  ([soh, 'h', 'i', stx, nul] : List Char)[i]))
        ∧ (∀ i, ([soh, 'h', 'i', stx, nul] : List Char).length ≤ i → i < 6 →
            t[i]? = some (zero_row ([nul, soh, stx, 'h', 'i'] : List Char).length)
            ∧ decode_position t i = none)) :=
  ⟨by decide, by decide,
    round_trip_encode_decode 6 [nul, soh, stx, 'h', 'i'] [soh, 'h', 'i', stx, nul]
      (by decide) (by decide)⟩

/-- C3: for a non-empty record of length `L` whose characters occur in the
vocabulary, the target sequence built by `train` has length `L`, equals the
record without its first symbol followed by the pad sentinel (translated to
indices), and its one-hot row at position `i` equals the record encoding's
row at position `i + 1` for every `i < L - 1`. -/
theorem shift_invariant_spec (maxLen : Nat) (ucs : List Char) (r : List Char)
    (hne : r ≠ []) (hmem : ∀ c ∈ r, c ∈ ucs) (hnul : nul ∈ ucs)
    (hlen : r.length ≤ maxLen) :
    ∃ rseq tseq, encode_record ucs r = some rseq
      ∧ shift_for_target ucs r = some tseq
      ∧ tseq.length = r.length
      ∧ tseq = (r.tail ++ [nul]).map (fun c => ucs.indexOf c)
      ∧ (∀ i, i + 1 < r.length →
          (convert_to_onehot maxLen ucs.length tseq)[i]?
            = (convert_to_onehot maxLen ucs.length rseq)[i + 1]?) := by
  cases r with
  | nil => exact absurd rfl hne
  | cons a rs =>
    refine ⟨(a :: rs).map (fun c => ucs.indexOf c),
      (rs ++ [nul]).map (fun c => ucs.indexOf c),
      encode_record_eq_map ucs _ hmem, ?_, ?_, rfl, ?_⟩
    · unfold shift_for_target
      rw [encode_record_eq_map ucs (a :: rs) hmem, List.map_cons]
      simp only [Option.some_bind]
      rw [lookup_char_to_int ucs nul hnul]
      simp [List.map_append]
    · simp
    · intro i hi
      have hi2 : i < rs.length := by simpa using hi
      have hlen2 : rs.length + 1 ≤ maxLen := by simpa using hlen
      rw [convert_to_onehot_getElem maxLen ucs.length _ i (by omega)]
      rw [convert_to_onehot_getElem maxLen ucs.length _ (i + 1) (by omega)]
      rw [if_pos (by simp; omega), if_pos (by simp; omega)]
      have hleft : ((rs ++ [nul]).map (fun c => ucs.indexOf c)).getD i 0
          = ucs.indexOf rs[i] := by
        rw [List.getD_eq_getElem?_getD, List.getElem?_map,
          List.getElem?_append_left hi2, List.getElem?_eq_getElem hi2]
        rfl
      have hright : ((a :: rs).map (fun c => ucs.indexOf c)).getD (i + 1) 0
          = ucs.indexOf rs[i] := by
        rw [List.getD_eq_getElem?_getD, List.getElem?_map,
          List.getElem?_cons_succ, List.getElem?_eq_getElem hi2]
        rfl
      rw [hleft, hright]

/-- C3 witness: the wrapped record of the raw text "hi" has target sequence
equal to its tail followed by the pad sentinel, with aligned one-hot
rows. -/
theorem shift_invariant_spec_witness :
    (([soh, 'h', 'i', stx, nul] : List Char) ≠ [])
    ∧ (nul ∈ ([nul, soh, stx, 'h', 'i'] : List Char))
    ∧ (∃ rseq tseq,
        encode_record [nul, soh, stx, 'h', 'i'] [soh, 'h', 'i', stx, nul]
          = some rseq
        ∧ shift_for_target [nul, soh, stx, 'h', 'i'] [soh, 'h', 'i', stx, nul]
          = some tseq
        ∧ tseq.length = ([soh, 'h', 'i', stx, nul] : List Char).length
        ∧ tseq = (([soh, 'h', 'i', stx, nul] : List Char).tail ++ [nul]).map
            (fun c => ([nul, soh, stx, 'h', 'i'] : List Char).indexOf c)
        ∧ (∀ i, i + 1 < ([soh, 'h', 'i', stx, nul] : List Char).length →
            (convert_to_onehot 5 ([nul, soh, stx, 'h', 'i'] : List Char).length
                tseq)[i]?
              = (convert_to_onehot 5 ([nul, soh, stx, 'h', 'i'] : List Char).length
                  rseq)[i + 1]?)) :=
  ⟨by decide, by decide,
    shift_invariant_spec 5 [nul, soh, stx, 'h', 'i'] [soh, 'h', 'i', stx, nul]
      (by decide) (by decide) (by decide) (by decide)⟩

/-- C7: after `get_character_set`, the vocabulary is the sorted duplicate-free
list of the characters of the wrapped corpus, and the two dictionaries are
mutually inverse bijections between it and the dense index range: every
character of the set maps to an index that maps back to it, and every index
below the vocabulary size is a key of `int_to_char_dict` whose character
maps back to that index. -/
theorem vocabulary_bijection_spec (data : List (List Char)) :
    (get_character_set data).Nodup
    ∧ List.Sorted (fun a b => a ≤ b) (get_character_set data)
    ∧ (∀ c, c ∈ get_character_set data ↔ c ∈ data.flatten)
    ∧ (∀ c ∈ get_character_set data, ∃ i,
        (char_to_int_dict (get_character_set data)).lookup c = some i
        ∧ (int_to_char_dict (get_character_set data)).lookup i = some c)
    ∧ (∀ i, i < (get_character_set data).length → ∃ c,
        (int_to_char_dict (get_character_set data)).lookup i = some c
        ∧ (char_to_int_dict (get_character_set data)).lookup c = some i) := by
  have hperm := List.perm_insertionSort (fun a b : Char => a ≤ b) data.flatten.dedup
  have hnodup : (get_character_set data).Nodup := by
    unfold get_character_set
    exact hperm.nodup_iff.mpr (List.nodup_dedup _)
  refine ⟨hnodup, ?_, ?_, ?_, ?_⟩
  · exact List.sorted_insertionSort _ _
  · intro c
    unfold get_character_set
    rw [hperm.mem_iff, List.mem_dedup]
  · intro c hc
    refine ⟨(get_character_set data).indexOf c, lookup_char_to_int _ c hc, ?_⟩
    rw [lookup_int_to_char]
    exact getElem_indexOf_of_mem _ c hc
  · intro i hi
    have hsome : (get_character_set data)[i]? = some ((get_character_set data)[i]) :=
      List.getElem?_eq_getElem hi
    have hmem : (get_character_set data)[i] ∈ get_character_set data :=
      List.getElem_mem hi
    refine ⟨(get_character_set data)[i], by rw [lookup_int_to_char]; exact hsome, ?_⟩
    rw [lookup_char_to_int _ _ hmem]
    have hidx : (get_character_set data).indexOf ((get_character_set data)[i]) = i := by
      have h1 := getElem_indexOf_of_mem _ _ hmem
      have h2 : (get_character_set data).indexOf ((get_character_set data)[i])
          < (get_character_set data).length :=
        List.indexOf_lt_length.mpr hmem
      exact List.getElem?_inj h2 hnodup (h1.trans hsome.symm)
    rw [hidx]

/-- C7 witness: on the corpus with the single wrapped record made of the
start sentinel, the letter h and the pad sentinel, the start sentinel maps
to an index that maps back to it. -/
theorem vocabulary_bijection_spec_witness :
    (soh ∈ get_character_set [[soh, 'h', nul]])
    ∧ (∃ i, (char_to_int_dict (get_character_set [[soh, 'h', nul]])).lookup soh
          = some i
        ∧ (int_to_char_dict (get_character_set [[soh, 'h', nul]])).lookup i
          = some soh) :=
  ⟨by decide, (vocabulary_bijection_spec [[soh, 'h', nul]]).2.2.2.1 soh (by decide)⟩

/-- C5: on any model-prediction function whose predicted rows have the
vocabulary width — including one that always predicts the last valid
symbol — `generate_text` runs all `max_string_length` steps and returns
without raising, and the write of a predicted one-hot into row
`max_string_length` (position `index + 1` at the final step), which falls
outside the tensor, leaves the tensor unchanged rather than being
reported. -/
theorem sampler_bounds_safety (maxLen : Nat) (ucs : List Char)
    (predict : List (List Nat) → List (List Rat)) (hs : soh ∈ ucs)
    (hshape : ∀ st, ∀ row ∈ predict st, row.length = ucs.length) :
    (generate_text maxLen ucs predict).isSome
    ∧ (∀ (st : List (List Nat)) (c : Char), st.length = maxLen → c ∈ ucs →
        append_onehot ucs st maxLen c = some st) := by
  have hv : 0 < ucs.length := List.length_pos_of_mem hs
  constructor
  · unfold generate_text
    rw [append_onehot_of_mem ucs _ 0 soh hs]
    show (match run_steps ucs predict (List.range maxLen)
            ((List.replicate maxLen (zero_row ucs.length)).set 0
              (oneHotRow ucs.length (ucs.indexOf soh))) "" "" with
          | none => none
          | some r => some (r.2.1, r.2.2)).isSome
    have hrun := run_steps_some ucs predict hv hshape (List.range maxLen)
      ((List.replicate maxLen (zero_row ucs.length)).set 0
        (oneHotRow ucs.length (ucs.indexOf soh))) "" ""
    obtain ⟨out, hout⟩ := Option.isSome_iff_exists.mp hrun
    rw [hout]
    rfl
  · intro st c hlen hc
    rw [append_onehot_of_mem ucs st maxLen c hc,
      List.set_eq_of_length_le (le_of_eq hlen)]

/-- C5 witness: the model that always predicts the last valid symbol of the
three-symbol vocabulary samples all three positions without raising, and
the out-of-range write at row 3 is a no-op. -/
theorem sampler_bounds_safety_witness :
    (soh ∈ ([nul, soh, stx] : List Char))
    ∧ (∀ st : List (List Nat),
        ∀ row ∈ (fun _ : List (List Nat) => List.replicate 3 [(0 : Rat), 0, 1]) st,
          row.length = ([nul, soh, stx] : List Char).length)
    ∧ ((generate_text 3 [nul, soh, stx]
          (fun _ => List.replicate 3 [(0 : Rat), 0, 1])).isSome
        ∧ (∀ (st : List (List Nat)) (c : Char), st.length = 3 →
            c ∈ ([nul, soh, stx] : List Char) →
            append_onehot [nul, soh, stx] st 3 c = some st)) :=
  ⟨by decide,
    fun st row h => by rw [List.eq_of_mem_replicate h]; rfl,
    sampler_bounds_safety 3 [nul, soh, stx]
      (fun _ => List.replicate 3 [(0 : Rat), 0, 1]) (by decide)
      (fun st row h => by rw [List.eq_of_mem_replicate h]; rfl)⟩

/-- C6: the sampling loop has no stochastic choice — its result depends
only on the values of the model-prediction function — so two runs of
`generate_text` against the same vocabulary and pointwise-identical
prediction functions (identical weights) return identical values, both the
space-joined index string and the concatenated symbol string. -/
theorem sampler_determinism (maxLen : Nat) (ucs : List Char)
    (p1 p2 : List (List Nat) → List (List Rat)) (h : ∀ st, p1 st = p2 st) :
    generate_text maxLen ucs p1 = generate_text maxLen ucs p2 := by
  rw [funext h]

/-- C6 witness: two syntactically different but pointwise-equal prediction
functions generate identical output. -/
theorem sampler_determinism_witness :
    (∀ st : List (List Nat), (fun _ : List (List Nat) => [[(1 : Rat)]]) st
        = (fun _ : List (List Nat) => List.map id [[(1 : Rat)]]) st)
    ∧ generate_text 2 [nul, soh] (fun _ => [[(1 : Rat)]])
      = generate_text 2 [nul, soh] (fun _ => List.map id [[(1 : Rat)]]) :=
  ⟨fun st => by simp, sampler_determinism 2 [nul, soh] _ _ (fun st => by simp)⟩

/-- C9: throughout any run of `generate_text`, the initialization
establishes and every step preserves the tensor invariant — row 0 holds the
one-hot of the start sentinel (steps write only rows `index + 1 ≥ 1`), and
every row has at most one entry equal to 1 — hence whenever the returned
character string is non-empty its first character is the start sentinel. -/
theorem sampler_start_sentinel (maxLen : Nat) (ucs : List Char)
    (predict : List (List Nat) → List (List Rat)) (hs : soh ∈ ucs)
    (hml : 0 < maxLen) :
    (∀ st1, append_onehot ucs (List.replicate maxLen (zero_row ucs.length)) 0 soh
        = some st1 → sampler_inv ucs st1)
    ∧ (∀ (st : List (List Nat)) (i : Nat) (st2 : List (List Nat)),
        sampler_inv ucs st → gstep ucs predict st i = some st2 →
        sampler_inv ucs st2 ∧ st2[0]? = st[0]?)
    ∧ (∀ st, sampler_inv ucs st → ∀ row ∈ st, row.count 1 ≤ 1)
    ∧ (∀ p, generate_text maxLen ucs predict = some p → p.2 ≠ "" →
        p.2.data.head? = some soh) := by
  refine ⟨fun st1 h => init_inv maxLen ucs hs hml st1 h, ?_, ?_, ?_⟩
  · intro st i st2 hinv hg
    have h2 := gstep_preserves_inv ucs predict st i st2 hinv hg
    refine ⟨h2, ?_⟩
    rw [h2.1, hinv.1]
  · intro st hinv row hrow
    cases hinv.2 row hrow with
    | inl h2 =>
      rw [h2, count_zero_row]
      omega
    | inr h2 =>
      obtain ⟨j, hj, h3⟩ := h2
      rw [h3, count_oneHotRow j ucs.length hj]
  · intro p hgen _hne
    unfold generate_text at hgen
    split at hgen
    · cases hgen
    · rename_i st1 hinit
      split at hgen
      · cases hgen
      · rename_i out hrun
        injection hgen with h2
        have hinv1 := init_inv maxLen ucs hs hml st1 hinit
        obtain ⟨hinvf, _, hdec⟩ :=
          run_steps_inv ucs predict (List.range maxLen) st1 "" "" out hrun hinv1
        have hrne : List.range maxLen ≠ [] :=
          List.ne_nil_of_mem (List.mem_range.mpr hml)
        have hout2 := hdec hrne
        rw [← h2]
        show out.2.2.data.head? = some soh
        have h4 : out.2.2 = (decode_rows ucs out.1).2 := by rw [hout2]
        rw [h4]
        exact decode_rows_head ucs out.1 (ucs.indexOf soh) soh hinvf.1
          (List.indexOf_lt_length.mpr hs) (getElem_indexOf_of_mem ucs soh hs)

/-- C9 witness: with a two-symbol vocabulary and a model that always
predicts the second symbol, the invariant and first-character property hold
for the two-step sampling run. -/
theorem sampler_start_sentinel_witness :
    (soh ∈ ([nul, soh] : List Char)) ∧ (0 < 2)
    ∧ ((∀ st1, append_onehot [nul, soh]
          (List.replicate 2 (zero_row ([nul, soh] : List Char).length)) 0 soh
          = some st1 → sampler_inv [nul, soh] st1)
        ∧ (∀ (st : List (List Nat)) (i : Nat) (st2 : List (List Nat)),
            sampler_inv [nul, soh] st →
            gstep [nul, soh] (fun _ => List.replicate 2 [(0 : Rat), 1]) st i
              = some st2 →
            sampler_inv [nul, soh] st2 ∧ st2[0]? = st[0]?)
        ∧ (∀ st, sampler_inv [nul, soh] st → ∀ row ∈ st, row.count 1 ≤ 1)
        ∧ (∀ p, generate_text 2 [nul, soh]
              (fun _ => List.replicate 2 [(0 : Rat), 1]) = some p → p.2 ≠ "" →
            p.2.data.head? = some soh)) :=
  ⟨by decide, by decide,
    sampler_start_sentinel 2 [nul, soh] (fun _ => List.replicate 2 [(0 : Rat), 1])
      (by decide) (by decide)⟩

end NeuralNet
